import Mathlib

/-!
Verification development for the Olist e-commerce dashboard
(`dashboard/dashboard.py`).

The dashboard is a linear pandas pipeline: load tables, filter by a date
window (plus optional category / state), aggregate, and compute an RFM
(Recency / Frequency / Monetary) customer segmentation.  This file gives a
shallow embedding of the parts of that pipeline the specification talks
about, translated from the source:

* timestamps and money amounts are modelled as `ℚ` (pandas float64
  arithmetic on the values involved is exact decimal arithmetic here);
  identifiers (`order_id`, `customer_id`, `product_id`) are modelled as `ℕ`;
* a pandas boolean-mask filter is `List.filter`;
* `groupby` (which sorts group keys ascending) is: sorted deduplicated
  keys, each paired with the aggregate over the matching rows;
* `pd.qcut(col, q=5, labels=L, duplicates='drop')` computes the 6
  linearly-interpolated quantile edges of the sorted column, raises
  `ValueError` (modelled as `none`) when the edges are not pairwise
  distinct (the dropped duplicate edges make the label list the wrong
  length), and otherwise assigns each value the label of its half-open
  bin, the lowest edge included in the first bin;
* `pd.cut(col, bins=5, labels=L)` bins into 5 equal-width intervals over
  `[min, max]`, the first edge lowered by 0.1% of the range;
* float division by zero (`inf`/`NaN`) is modelled as `none`.
-/

namespace OlistDash

/-! ### Sorting (stable insertion sort, the order `groupby`/`rank` use) -/

/-- Insert `x` into `l`, before the first element `y` with `¬ le x y`.
For a total preorder `le` this places `x` in front of the elements equal
to it that arrived later, which is exactly the stable behaviour of the
sorts pandas uses for `groupby` keys and `rank(method='first')`. -/
def insertLe {α : Type} (le : α → α → Bool) (x : α) : List α → List α
  | [] => [x]
  | y :: ys => if le x y then x :: y :: ys else y :: insertLe le x ys

/-- Stable insertion sort by the boolean relation `le`. -/
def sortLe {α : Type} (le : α → α → Bool) (l : List α) : List α :=
  l.foldr (insertLe le) []

/-- Ascending sort of a rational column. -/
def sortQ (xs : List ℚ) : List ℚ :=
  sortLe (fun a b => decide (a ≤ b)) xs

/-- Ascending order on natural-number keys, as a boolean relation. -/
def natLe : ℕ → ℕ → Bool := fun a b => decide (a ≤ b)

/-- Lexicographic order on strings, as a boolean relation (the order pandas
sorts string group keys in). -/
def strLe : String → String → Bool := fun a b => decide (a ≤ b)

/-- Minimum of a column (`Series.min`); only used on non-empty columns. -/
def listMin (xs : List ℚ) : ℚ := xs.foldr min (xs.headD 0)

/-- Maximum of a column (`Series.max`); only used on non-empty columns. -/
def listMax (xs : List ℚ) : ℚ := xs.foldr max (xs.headD 0)

/-! ### Data model (§3 of the spec, column subsets actually used) -/

/-- A row of `orders_dataset` (the columns the filters read). -/
structure Order where
  order_id : ℕ
  customer_id : ℕ
  order_status : String
  purchase_ts : ℚ
deriving DecidableEq

/-- A row of `order_items_dataset`. -/
structure OrderItem where
  order_id : ℕ
  product_id : ℕ
  price : ℚ
deriving DecidableEq

/-- A row of `products_dataset` after the left join with the category
translation table: `product_category_name_english` is `none` exactly when
the category has no translation (a `NaN` cell in the merged frame). -/
structure Product where
  product_id : ℕ
  category_name : String
  category_name_english : Option String
deriving DecidableEq

/-- A row of `order_payments_dataset` (the columns tab 2/3 read). -/
structure Payment where
  order_id : ℕ
  payment_type : String
  payment_value : ℚ
deriving DecidableEq

/-- A row of the `orders_with_payments` inner merge (tab 2, line 336). -/
structure OPRow where
  order_id : ℕ
  customer_id : ℕ
  purchase_ts : ℚ
  payment_value : ℚ
deriving DecidableEq

/-- A row of the `rfm` frame after the three metric merges (lines 346-359). -/
structure RFMRow where
  customer_id : ℕ
  recency : ℤ
  frequency : ℕ
  monetary : ℚ
deriving DecidableEq

/-! ### Filterer -/

/-- Tab 1 date filter (lines 192-193): keep orders with
`start_date ≤ order_purchase_timestamp ≤ end_date`. -/
def filterOrders (orders : List Order) (startD endD : ℚ) : List Order :=
  orders.filter (fun o => decide (startD ≤ o.purchase_ts ∧ o.purchase_ts ≤ endD))

/-- Tab 2 date-and-status filter (lines 329-333): the date window plus
`order_status == 'delivered'`. -/
def filterOrdersDelivered (orders : List Order) (startD endD : ℚ) : List Order :=
  orders.filter (fun o =>
    decide (startD ≤ o.purchase_ts ∧ o.purchase_ts ≤ endD ∧ o.order_status = "delivered"))

/-- The `orders_with_payments` inner merge on `order_id` (lines 336-341):
each order row paired with each of its payment rows, left order kept. -/
def ordersWithPayments (orders : List Order) (pays : List Payment) : List OPRow :=
  (orders.map (fun o =>
    (pays.filter (fun p => decide (p.order_id = o.order_id))).map (fun p =>
      { order_id := o.order_id
        customer_id := o.customer_id
        purchase_ts := o.purchase_ts
        payment_value := p.payment_value }))).flatten

/-- Tab 1 category filter (lines 204-206): when a category is selected the
code collects the ids of products whose `product_category_name_english`
equals the selection and keeps the items with `product_id.isin` that set;
a product whose category has no translation has `NaN` there and never
matches.  With no selection all items are kept. -/
def filterByCategory (items : List OrderItem) (products : List Product) :
    Option String → List OrderItem
  | none => items
  | some c =>
    let pids := (products.filter (fun p => decide (p.category_name_english = some c))).map
      (fun p => p.product_id)
    items.filter (fun it => decide (it.product_id ∈ pids))

/-- Category filter as the specification words it (§4.1): compare against
the translated category, falling back to the native category name when no
translation exists.  Kept separately to compare with `filterByCategory`,
the translation of the code. -/
def filterByCategorySpec (items : List OrderItem) (products : List Product) :
    Option String → List OrderItem
  | none => items
  | some c =>
    let pids := (products.filter (fun p =>
      decide (p.category_name_english.getD p.category_name = c))).map (fun p => p.product_id)
    items.filter (fun it => decide (it.product_id ∈ pids))

/-! ### Aggregator -/

/-- Number of distinct orders among the filtered items
(`filtered_items['order_id'].nunique()`, line 212). -/
def totalOrders (items : List OrderItem) : ℕ :=
  ((items.map (fun it => it.order_id)).dedup).length

/-- Total sales (`filtered_items['price'].sum()`, line 216). -/
def totalSales (items : List OrderItem) : ℚ :=
  (items.map (fun it => it.price)).sum

/-- Average order value (line 220): guarded by
`... if total_orders > 0 else 0`. -/
def avgOrderValue (items : List OrderItem) : ℚ :=
  if 0 < totalOrders items then totalSales items / (totalOrders items : ℚ) else 0

/-- Group `(key, price)` rows by key and sum the prices
(`groupby(cat_column).agg({'price': 'sum'})`, lines 277-280); `groupby`
sorts the group keys ascending by `leK`. -/
def categorySales {κ : Type} [DecidableEq κ] (leK : κ → κ → Bool)
    (rows : List (κ × ℚ)) : List (κ × ℚ) :=
  (sortLe leK (rows.map Prod.fst).dedup).map (fun k =>
    (k, ((rows.filter (fun r => decide (r.1 = k))).map Prod.snd).sum))

/-- The sort `category_sales.sort_values('price', ascending=False)`
(line 283).  pandas `nargsort` computes an ascending `argsort` with the
default `kind='quicksort'` and then reverses the whole indexer for
`ascending=False`; numpy's introsort runs a plain (stable) insertion sort
on arrays below its 16-element cutoff, so for such frames the result is
exactly the reverse of a stable ascending sort — which is what is
modelled here.  In particular rows with equal prices come out in reverse
frame order, not frame order. -/
def sortValuesDescByPrice {κ : Type} (rows : List (κ × ℚ)) : List (κ × ℚ) :=
  (sortLe (fun a b => decide (a.2 ≤ b.2)) rows).reverse

/-- Top-10 category ranking (line 283): descending sort by summed price,
then `head(10)`. -/
def topCategories {κ : Type} [DecidableEq κ] (leK : κ → κ → Bool)
    (rows : List (κ × ℚ)) : List (κ × ℚ) :=
  (sortValuesDescByPrice (categorySales leK rows)).take 10

/-- Top-10 ranking as the specification words it: a stable descending
sort, ties broken by the grouped frame's row order.  Kept separately to
compare with `topCategories`, the translation of the code. -/
def topCategoriesSpec {κ : Type} [DecidableEq κ] (leK : κ → κ → Bool)
    (rows : List (κ × ℚ)) : List (κ × ℚ) :=
  (sortLe (fun a b => decide (b.2 ≤ a.2)) (categorySales leK rows)).take 10

/-- Payment summary (lines 573-578): group payments by type (keys sorted
ascending), with the summed value and the distinct order count. -/
def paymentSummary (pays : List Payment) : List (String × ℚ × ℕ) :=
  (sortLe strLe (pays.map (fun p => p.payment_type)).dedup).map (fun t =>
    (t,
     ((pays.filter (fun p => decide (p.payment_type = t))).map (fun p => p.payment_value)).sum,
     ((pays.filter (fun p => decide (p.payment_type = t))).map (fun p => p.order_id)).dedup.length))

/-- The grand total `payment_summary['total_value'].sum()` (line 579). -/
def grandTotal (pays : List Payment) : ℚ :=
  ((paymentSummary pays).map (fun r => r.2.1)).sum

/-- IEEE float division as the code relies on it: a zero denominator
produces `NaN` (for `0/0`) or `±inf`, neither of which is a number —
modelled as `none`. -/
def floatDiv (a b : ℚ) : Option ℚ :=
  if b = 0 then none else some (a / b)

/-- The unguarded percentage column
`total_value / total_value.sum() * 100` (line 579). -/
def paymentPercentages (pays : List Payment) : List (Option ℚ) :=
  (paymentSummary pays).map (fun r => (floatDiv r.2.1 (grandTotal pays)).map (fun q => q * 100))

/-- Signed delivery delta in days,
`(order_delivered_customer_date - order_estimated_delivery_date).dt.days`
(lines 713-714), on rows where both dates are present. -/
def deliveryDifference (actualDay estimatedDay : ℤ) : ℤ :=
  actualDay - estimatedDay

/-- Delivery status classification (lines 742-746):
`pd.cut(delta, bins=[-inf,-3,-1,0,2,inf], labels=[...])` — five ordered
right-closed bins. -/
def deliveryStatus (delta : ℤ) : String :=
  if delta ≤ -3 then "Very Early"
  else if delta ≤ -1 then "Early"
  else if delta ≤ 0 then "On Time"
  else if delta ≤ 2 then "Late"
  else "Very Late"

/-! ### Segmenter (RFM) -/

/-- Number of distinct values of a column (`Series.nunique()`). -/
def nunique (xs : List ℚ) : ℕ := xs.dedup.length

/-- The rank transform `Series.rank(method='first')` (lines 394, 403):
the value at position `i` gets rank `1 +` (number of strictly smaller
values anywhere) `+` (number of equal values at earlier positions), so
ties are ranked in order of appearance. -/
def rankFirst (xs : List ℚ) : List ℕ :=
  (List.range xs.length).map (fun i =>
    1 + xs.countP (fun y => decide (y < xs.getD i 0))
      + (xs.take i).countP (fun y => decide (y = xs.getD i 0)))

/-- The ranks as a float column (what `pd.qcut` actually receives). -/
def rankQ (xs : List ℚ) : List ℚ :=
  (rankFirst xs).map (fun k : ℕ => (Nat.cast k : ℚ))

/-- Linear-interpolation quantile of a sorted column `s` at probability
`p` (numpy's default `interpolation='linear'`, which `pd.qcut` uses):
with `pos = p * (n - 1)`, interpolate between `s[⌊pos⌋]` and
`s[⌊pos⌋ + 1]`. -/
def quantileAt (s : List ℚ) (p : ℚ) : ℚ :=
  if ⌊p * ((s.length : ℚ) - 1)⌋.toNat + 1 < s.length then
    s.getD ⌊p * ((s.length : ℚ) - 1)⌋.toNat 0
      + (p * ((s.length : ℚ) - 1) - ((⌊p * ((s.length : ℚ) - 1)⌋.toNat : ℕ) : ℚ))
        * (s.getD (⌊p * ((s.length : ℚ) - 1)⌋.toNat + 1) 0
            - s.getD ⌊p * ((s.length : ℚ) - 1)⌋.toNat 0)
  else s.getD ⌊p * ((s.length : ℚ) - 1)⌋.toNat 0

/-- The `q+1` quantile bin edges `pd.qcut` computes: quantiles of the
sorted column at `0, 1/q, …, 1`. -/
def quantileEdges (xs : List ℚ) (q : ℕ) : List ℚ :=
  (List.range (q + 1)).map
    (fun i : ℕ => quantileAt (sortQ xs) ((Nat.cast i : ℚ) / (Nat.cast q : ℚ)))

/-- `searchsorted(edges, x, side='left')` on a sorted edge list: the first
index whose edge is `≥ x` (the list's length when there is none). -/
def searchIdx (x : ℚ) : List ℚ → ℕ
  | [] => 0
  | e :: es => if x ≤ e then 0 else searchIdx x es + 1

/-- Bin assignment of `pandas._bins_to_cuts` for right-closed bins: value
`x` lands in bin `ids - 1` where `ids = searchsorted(edges, x, 'left')`,
except that with `include_lowest` a value equal to the first edge is put
in the first bin; `ids = 0` or `ids = len(edges)` is out of range and
yields `NaN` (`none`). -/
def assignBin {α : Type} (edges : List ℚ) (labels : List α) (includeLowest : Bool)
    (x : ℚ) : Option α :=
  let j := searchIdx x edges
  let ids := if includeLowest && decide (edges.getD 0 0 = x) then 1 else j
  if ids = 0 ∨ edges.length ≤ ids then none else labels.get? (ids - 1)

/-- `pd.qcut(xs, q, labels, duplicates='drop')` (lines 385, 394, 403):
compute the quantile edges; when they contain duplicates the dropped
edges leave fewer bins than labels and pandas raises `ValueError`
(modelled as `none`); otherwise assign each value its bin label, lowest
edge included. -/
def qcut {α : Type} (xs : List ℚ) (q : ℕ) (labels : List α) :
    Option (List (Option α)) :=
  let edges := quantileEdges xs q
  if edges.Nodup then some (xs.map (assignBin edges labels true)) else none

/-- `np.linspace(lo, hi, nb + 1)`: the `nb + 1` evenly spaced edges. -/
def linspaceEdges (lo hi : ℚ) (nb : ℕ) : List ℚ :=
  (List.range (nb + 1)).map
    (fun i : ℕ => lo + (Nat.cast i : ℚ) * (hi - lo) / (Nat.cast nb : ℚ))

/-- The edges `pd.cut(xs, bins=nb)` uses: `nb` equal-width bins over
`[min, max]`, with the first edge lowered by 0.1% of the range so the
minimum is covered (and both ends padded by 0.1% when the column is
constant). -/
def cutBins (xs : List ℚ) (nb : ℕ) : List ℚ :=
  let mn := listMin xs
  let mx := listMax xs
  if mn = mx then
    linspaceEdges (mn - (if mn = 0 then 1/1000 else |mn| / 1000))
      (mx + (if mx = 0 then 1/1000 else |mx| / 1000)) nb
  else
    match linspaceEdges mn mx nb with
    | [] => []
    | e :: es => (e - (mx - mn) / 1000) :: es

/-- `pd.cut(xs, bins=nb, labels, duplicates='drop')` (lines 387, 396,
405), the equal-width fallback: bin each value by the `cutBins` edges
(no `include_lowest` here — the lowered first edge already covers the
minimum). -/
def cutN {α : Type} (xs : List ℚ) (nb : ℕ) (labels : List α) : List (Option α) :=
  xs.map (assignBin (cutBins xs nb) labels false)

/-- Per-metric score assignment (lines 380-405): fewer than 5 distinct
values gives every row the neutral score 3; otherwise `pd.qcut` into 5
quantile bins — applied to `rank(method='first')` of the column when
`useRank` (frequency, monetary) and to the raw column otherwise
(recency) — falling back to equal-width `pd.cut` on the raw column when
`qcut` raises `ValueError`. -/
def scoreMetric (xs : List ℚ) (labels : List ℕ) (useRank : Bool) :
    List (Option ℕ) :=
  if nunique xs < 5 then xs.map (fun _ => some 3)
  else (qcut (if useRank then rankQ xs else xs) 5 labels).getD (cutN xs 5 labels)

/-- The customer ids of the `rfm` frame: `groupby('customer_id')` sorts
the distinct keys ascending (lines 346-359). -/
def customersOf (rows : List OPRow) : List ℕ :=
  sortLe natLe (rows.map (fun r => r.customer_id)).dedup

/-- Rows of `orders_with_payments` belonging to one customer. -/
def rowsOf (rows : List OPRow) (c : ℕ) : List OPRow :=
  rows.filter (fun r => decide (r.customer_id = c))

/-- The `rfm` frame (lines 346-359): per customer, `recency` is the
floored day difference between the window end and the latest purchase,
`frequency` the distinct order count and `monetary` the summed payment
values. -/
def rfmTable (rows : List OPRow) (endD : ℚ) : List RFMRow :=
  (customersOf rows).map (fun c =>
    { customer_id := c
      recency := ⌊endD - listMax ((rowsOf rows c).map (fun r => r.purchase_ts))⌋
      frequency := (((rowsOf rows c).map (fun r => r.order_id)).dedup).length
      monetary := ((rowsOf rows c).map (fun r => r.payment_value)).sum })

/-- The `recency` column of the `rfm` frame, as floats. -/
def recencies (t : List RFMRow) : List ℚ := t.map (fun r => (r.recency : ℚ))

/-- The `frequency` column of the `rfm` frame, as floats. -/
def frequencies (t : List RFMRow) : List ℚ := t.map (fun r => (r.frequency : ℚ))

/-- The `monetary` column of the `rfm` frame. -/
def monetaries (t : List RFMRow) : List ℚ := t.map (fun r => r.monetary)

/-- `r_score` (lines 380-387): labels `5,4,3,2,1` — low recency is good —
on the raw column. -/
def rScores (t : List RFMRow) : List (Option ℕ) :=
  scoreMetric (recencies t) [5, 4, 3, 2, 1] false

/-- `f_score` (lines 390-396): labels `1..5` on `rank(method='first')`. -/
def fScores (t : List RFMRow) : List (Option ℕ) :=
  scoreMetric (frequencies t) [1, 2, 3, 4, 5] true

/-- `m_score` (lines 399-405): labels `1..5` on `rank(method='first')`. -/
def mScores (t : List RFMRow) : List (Option ℕ) :=
  scoreMetric (monetaries t) [1, 2, 3, 4, 5] true

/-- Row-wise sum of the three score columns
(`rfm['r_score'] + rfm['f_score'] + rfm['m_score']`, line 412, after the
`pd.to_numeric(errors='coerce')` conversion); a `NaN` (`none`) in any
summand makes the sum `NaN`. -/
def sumScores : List (Option ℕ) → List (Option ℕ) → List (Option ℕ) → List (Option ℕ)
  | r :: rs, f :: fs, m :: ms =>
    (r.bind (fun a => f.bind (fun b => m.map (fun c => a + b + c)))) :: sumScores rs fs ms
  | _, _, _ => []

/-- The `rfm_score` column (line 412). -/
def compositeScores (t : List RFMRow) : List (Option ℕ) :=
  sumScores (rScores t) (fScores t) (mScores t)

/-- Segment labelling (lines 415-420):
`pd.cut(rfm_score, bins=[0,4,8,12,15], labels=[Bronze,Silver,Gold,Platinum],
include_lowest=True)`. -/
def segmentOf (o : Option ℕ) : Option String :=
  o.bind (fun v =>
    assignBin [0, 4, 8, 12, 15] ["Bronze", "Silver", "Gold", "Platinum"] true (v : ℚ))

/-- The `segment` column of the `rfm` frame. -/
def segments (t : List RFMRow) : List (Option String) :=
  (compositeScores t).map segmentOf

/-- The tab-2 guard (lines 343, 550-551): with a non-empty
`orders_with_payments` the segmentation is computed, otherwise the tab
shows the "not enough data" warning and no RFM result exists. -/
def rfmAnalysis (rows : List OPRow) (endD : ℚ) : Option (List (Option String)) :=
  if 0 < rows.length then some (segments (rfmTable rows endD)) else none

/-! ### Lemmas about the stable sort -/

theorem insertLe_perm {α : Type} (le : α → α → Bool) (x : α) (l : List α) :
    (insertLe le x l).Perm (x :: l) := by
  induction l with
  | nil => simp [insertLe]
  | cons y ys ih =>
    simp only [insertLe]
    split
    · exact List.Perm.refl _
    · exact (ih.cons y).trans (List.Perm.swap x y ys)

theorem sortLe_perm {α : Type} (le : α → α → Bool) (l : List α) :
    (sortLe le l).Perm l := by
  induction l with
  | nil => exact List.Perm.refl _
  | cons a l ih => exact (insertLe_perm le a (sortLe le l)).trans (ih.cons a)

theorem mem_insertLe {α : Type} (le : α → α → Bool) (x a : α) (l : List α) :
    a ∈ insertLe le x l ↔ a = x ∨ a ∈ l := by
  rw [(insertLe_perm le x l).mem_iff, List.mem_cons]

theorem insertLe_pairwise {α : Type} {le : α → α → Bool}
    (htot : ∀ a b, le a b = true ∨ le b a = true)
    (htr : ∀ a b c, le a b = true → le b c = true → le a c = true)
    (x : α) {l : List α} (h : l.Pairwise (fun a b => le a b = true)) :
    (insertLe le x l).Pairwise (fun a b => le a b = true) := by
  induction l with
  | nil => simp [insertLe]
  | cons y ys ih =>
    rcases List.pairwise_cons.mp h with ⟨hy, hys⟩
    simp only [insertLe]
    rcases hb : le x y with _ | _
    · simp only [Bool.false_eq_true, if_false]
      refine List.pairwise_cons.mpr ⟨?_, ih hys⟩
      intro z hz
      rcases (mem_insertLe le x z ys).mp hz with rfl | hz
      · rcases htot z y with hzy | hyz
        · rw [hb] at hzy; exact absurd hzy (by simp)
        · exact hyz
      · exact hy z hz
    · simp only [if_true]
      refine List.pairwise_cons.mpr ⟨?_, h⟩
      intro z hz
      rcases List.mem_cons.mp hz with rfl | hz
      · exact hb
      · exact htr x y z hb (hy z hz)

theorem sortLe_pairwise {α : Type} {le : α → α → Bool}
    (htot : ∀ a b, le a b = true ∨ le b a = true)
    (htr : ∀ a b c, le a b = true → le b c = true → le a c = true)
    (l : List α) : (sortLe le l).Pairwise (fun a b => le a b = true) := by
  induction l with
  | nil => simp [sortLe]
  | cons a l ih => exact insertLe_pairwise htot htr a ih

theorem sortQ_perm (xs : List ℚ) : (sortQ xs).Perm xs :=
  sortLe_perm _ xs

theorem sortQ_sorted (xs : List ℚ) : (sortQ xs).Pairwise (· ≤ ·) := by
  have h := @sortLe_pairwise ℚ (fun a b : ℚ => decide (a ≤ b))
    (fun a b => by rcases le_total a b with h | h
                   · exact Or.inl (decide_eq_true h)
                   · exact Or.inr (decide_eq_true h))
    (fun a b c hab hbc => decide_eq_true ((of_decide_eq_true hab).trans (of_decide_eq_true hbc)))
    xs
  exact h.imp (fun hab => of_decide_eq_true hab)

theorem sorted_getD_mono {s : List ℚ} (hs : s.Pairwise (· ≤ ·)) {i j : ℕ}
    (hij : i ≤ j) (hj : j < s.length) : s.getD i 0 ≤ s.getD j 0 := by
  rcases Nat.eq_or_lt_of_le hij with rfl | hlt
  · exact le_refl _
  · have hi : i < s.length := lt_trans hlt hj
    rw [List.getD_eq_getElem s 0 hi, List.getD_eq_getElem s 0 hj]
    exact List.pairwise_iff_getElem.mp hs i j hi hj hlt

theorem sorted_getD_strictMono {s : List ℚ} (hs : s.Pairwise (· < ·)) {i j : ℕ}
    (hij : i < j) (hj : j < s.length) : s.getD i 0 < s.getD j 0 := by
  have hi : i < s.length := lt_trans hij hj
  rw [List.getD_eq_getElem s 0 hi, List.getD_eq_getElem s 0 hj]
  exact List.pairwise_iff_getElem.mp hs i j hi hj hij

theorem sorted_head_le {s : List ℚ} (hs : s.Pairwise (· ≤ ·)) {x : ℚ}
    (hx : x ∈ s) : s.getD 0 0 ≤ x := by
  rcases List.mem_iff_getElem.mp hx with ⟨i, hi, rfl⟩
  rw [← List.getD_eq_getElem s 0 hi]
  exact sorted_getD_mono hs (Nat.zero_le i) hi

theorem sorted_le_last {s : List ℚ} (hs : s.Pairwise (· ≤ ·)) {x : ℚ}
    (hx : x ∈ s) : x ≤ s.getD (s.length - 1) 0 := by
  rcases List.mem_iff_getElem.mp hx with ⟨i, hi, rfl⟩
  rw [← List.getD_eq_getElem s 0 hi]
  exact sorted_getD_mono hs (Nat.le_sub_one_of_lt hi) (by omega)

/-! ### Lemmas about column minimum and maximum -/

theorem foldr_min_le_init (l : List ℚ) (init : ℚ) : l.foldr min init ≤ init := by
  induction l with
  | nil => exact le_refl _
  | cons a l ih => exact (min_le_right a _).trans ih

theorem foldr_min_le_mem {l : List ℚ} {x : ℚ} (init : ℚ) (hx : x ∈ l) :
    l.foldr min init ≤ x := by
  induction l with
  | nil => cases hx
  | cons a l ih =>
    rcases List.mem_cons.mp hx with rfl | hx
    · exact min_le_left _ _
    · exact (min_le_right a _).trans (ih hx)

theorem init_le_foldr_max (l : List ℚ) (init : ℚ) : init ≤ l.foldr max init := by
  induction l with
  | nil => exact le_refl _
  | cons a l ih => exact ih.trans (le_max_right a _)

theorem mem_le_foldr_max {l : List ℚ} {x : ℚ} (init : ℚ) (hx : x ∈ l) :
    x ≤ l.foldr max init := by
  induction l with
  | nil => cases hx
  | cons a l ih =>
    rcases List.mem_cons.mp hx with rfl | hx
    · exact le_max_left _ _
    · exact (ih hx).trans (le_max_right a _)

theorem listMin_le {xs : List ℚ} {x : ℚ} (hx : x ∈ xs) : listMin xs ≤ x :=
  foldr_min_le_mem _ hx

theorem le_listMax {xs : List ℚ} {x : ℚ} (hx : x ∈ xs) : x ≤ listMax xs :=
  mem_le_foldr_max _ hx

theorem listMin_lt_listMax {xs : List ℚ} {a b : ℚ} (ha : a ∈ xs) (hb : b ∈ xs)
    (hab : a ≠ b) : listMin xs < listMax xs := by
  rcases lt_or_gt_of_ne hab with h | h
  · exact lt_of_le_of_lt (listMin_le ha) (lt_of_lt_of_le h (le_listMax hb))
  · exact lt_of_le_of_lt (listMin_le hb) (lt_of_lt_of_le h (le_listMax ha))

theorem two_distinct_of_nunique {xs : List ℚ} (h : 2 ≤ nunique xs) :
    ∃ a ∈ xs, ∃ b ∈ xs, a ≠ b := by
  rcases hd : xs.dedup with _ | ⟨a, _ | ⟨b, rest⟩⟩
  · rw [nunique, hd] at h; simp at h
  · rw [nunique, hd] at h; simp at h
  · have hnd := xs.nodup_dedup
    rw [hd] at hnd
    rcases List.nodup_cons.mp hnd with ⟨hna, _⟩
    refine ⟨a, ?_, b, ?_, ?_⟩
    · rw [← List.mem_dedup, hd]; simp
    · rw [← List.mem_dedup, hd]; simp
    · intro hab; exact hna (hab ▸ List.mem_cons_self b rest)

theorem listMin_lt_listMax_of_nunique {xs : List ℚ} (h : 2 ≤ nunique xs) :
    listMin xs < listMax xs := by
  rcases two_distinct_of_nunique h with ⟨a, ha, b, hb, hab⟩
  exact listMin_lt_listMax ha hb hab

theorem nunique_le_length (xs : List ℚ) : nunique xs ≤ xs.length :=
  (List.dedup_sublist xs).length_le

/-! ### Lemmas about the rank transform -/

theorem countP_lt_add_countP_eq (xs : List ℚ) (a : ℚ) :
    xs.countP (fun y => decide (y < a)) + xs.countP (fun y => decide (y = a))
      = xs.countP (fun y => decide (y ≤ a)) := by
  induction xs with
  | nil => simp
  | cons x l ih =>
    simp only [List.countP_cons]
    rcases lt_trichotomy x a with h | h | h
    · simp only [decide_eq_true h, decide_eq_true (le_of_lt h),
        decide_eq_false (fun he => absurd he (ne_of_lt h))]
      simp; omega
    · simp only [h, decide_eq_true (le_refl a),
        decide_eq_false (lt_irrefl a), decide_eq_true (rfl : a = a)]
      simp; omega
    · simp only [decide_eq_false (fun hlt => absurd hlt (not_lt_of_gt h)),
        decide_eq_false (fun he => absurd he (ne_of_gt h)),
        decide_eq_false (fun hle => absurd hle (not_le_of_gt h))]
      simp; omega

/-- The raw scoring expression behind `rankFirst`. -/
def rankAt (xs : List ℚ) (i : ℕ) : ℕ :=
  1 + xs.countP (fun y => decide (y < xs.getD i 0))
    + (xs.take i).countP (fun y => decide (y = xs.getD i 0))

theorem rankFirst_eq_map_rankAt (xs : List ℚ) :
    rankFirst xs = (List.range xs.length).map (rankAt xs) := rfl

theorem count_eq_take_lt {xs : List ℚ} {i : ℕ} (hi : i < xs.length) :
    (xs.take i).countP (fun y => decide (y = xs.getD i 0)) + 1
      ≤ xs.countP (fun y => decide (y = xs.getD i 0)) := by
  set a := xs.getD i 0 with ha
  have hx : xs.drop i = a :: xs.drop (i + 1) := by
    rw [ha, List.getD_eq_getElem xs 0 hi]
    exact List.drop_eq_getElem_cons hi
  calc (xs.take i).countP (fun y => decide (y = a)) + 1
      ≤ (xs.take i).countP (fun y => decide (y = a))
          + (xs.drop i).countP (fun y => decide (y = a)) := by
        rw [hx, List.countP_cons]
        simp
    _ = xs.countP (fun y => decide (y = a)) := by
        rw [← List.countP_append, List.take_append_drop]

theorem rankAt_lt_of_val_lt {xs : List ℚ} {i j : ℕ} (hi : i < xs.length)
    (_hj : j < xs.length) (hv : xs.getD i 0 < xs.getD j 0) :
    rankAt xs i < rankAt xs j := by
  set a := xs.getD i 0 with ha
  set b := xs.getD j 0 with hb
  have h1 : rankAt xs i ≤ xs.countP (fun y => decide (y < a))
      + xs.countP (fun y => decide (y = a)) := by
    have := count_eq_take_lt hi
    rw [← ha] at this
    unfold rankAt
    rw [← ha]
    omega
  have h2 : xs.countP (fun y => decide (y < a)) + xs.countP (fun y => decide (y = a))
      ≤ xs.countP (fun y => decide (y < b)) := by
    rw [countP_lt_add_countP_eq]
    apply List.countP_mono_left
    intro x _ hx
    exact decide_eq_true (lt_of_le_of_lt (of_decide_eq_true hx) hv)
  have h3 : xs.countP (fun y => decide (y < b)) < rankAt xs j := by
    unfold rankAt
    rw [← hb]
    omega
  omega

theorem rankAt_lt_of_eq_val {xs : List ℚ} {i j : ℕ} (hij : i < j)
    (hj : j < xs.length) (hv : xs.getD i 0 = xs.getD j 0) :
    rankAt xs i < rankAt xs j := by
  have hi : i < xs.length := lt_trans hij hj
  have hcount : (xs.take i).countP (fun y => decide (y = xs.getD i 0)) + 1
      ≤ (xs.take j).countP (fun y => decide (y = xs.getD i 0)) := by
    have hstep : (xs.take (i + 1)).countP (fun y => decide (y = xs.getD i 0))
        = (xs.take i).countP (fun y => decide (y = xs.getD i 0)) + 1 := by
      have h1 : (some xs[i]).toList = [xs[i]] := rfl
      rw [List.take_succ, List.countP_append, List.getElem?_eq_getElem hi, h1,
        List.getD_eq_getElem xs 0 hi, List.countP_cons, List.countP_nil]
      simp
    have hmono : (xs.take (i + 1)).countP (fun y => decide (y = xs.getD i 0))
        ≤ (xs.take j).countP (fun y => decide (y = xs.getD i 0)) := by
      have hsub : xs.take (i + 1) = (xs.take j).take (i + 1) := by
        rw [List.take_take, min_eq_left (by omega)]
      rw [hsub]
      exact List.Sublist.countP_le _ (List.take_sublist _ _)
    omega
  unfold rankAt
  rw [← hv]
  omega

theorem rankAt_injOn {xs : List ℚ} {i j : ℕ} (hi : i < xs.length)
    (hj : j < xs.length) (h : rankAt xs i = rankAt xs j) : i = j := by
  by_contra hne
  rcases lt_trichotomy i j with hij | rfl | hij
  · rcases lt_trichotomy (xs.getD i 0) (xs.getD j 0) with hv | hv | hv
    · exact absurd h (Nat.ne_of_lt (rankAt_lt_of_val_lt hi hj hv))
    · exact absurd h (Nat.ne_of_lt (rankAt_lt_of_eq_val hij hj hv))
    · exact absurd h.symm (Nat.ne_of_lt (rankAt_lt_of_val_lt hj hi hv))
  · exact hne rfl
  · rcases lt_trichotomy (xs.getD i 0) (xs.getD j 0) with hv | hv | hv
    · exact absurd h (Nat.ne_of_lt (rankAt_lt_of_val_lt hi hj hv))
    · exact absurd h.symm (Nat.ne_of_lt (rankAt_lt_of_eq_val hij hi hv.symm))
    · exact absurd h.symm (Nat.ne_of_lt (rankAt_lt_of_val_lt hj hi hv))

theorem rankFirst_nodup (xs : List ℚ) : (rankFirst xs).Nodup := by
  rw [rankFirst_eq_map_rankAt]
  apply List.Nodup.map_on _ (List.nodup_range _)
  intro i hi j hj hf
  exact rankAt_injOn (List.mem_range.mp hi) (List.mem_range.mp hj) hf

theorem rankFirst_length (xs : List ℚ) : (rankFirst xs).length = xs.length := by
  simp [rankFirst]

theorem rankQ_nodup (xs : List ℚ) : (rankQ xs).Nodup := by
  rw [rankQ]
  apply List.Nodup.map _ (rankFirst_nodup xs)
  intro a b hab
  exact Nat.cast_injective hab

theorem rankQ_length (xs : List ℚ) : (rankQ xs).length = xs.length := by
  rw [rankQ, List.length_map, rankFirst_length]

/-! ### Lemmas about linear-interpolation quantiles -/

theorem quantileAt_zero (s : List ℚ) : quantileAt s 0 = s.getD 0 0 := by
  simp [quantileAt]

theorem quantileAt_one {s : List ℚ} (hs : s ≠ []) :
    quantileAt s 1 = s.getD (s.length - 1) 0 := by
  have hn : 1 ≤ s.length := List.length_pos.mpr hs
  have hcast : ((s.length : ℚ) - 1) = ((s.length - 1 : ℕ) : ℚ) := by
    push_cast [hn]
    ring
  rw [quantileAt]
  simp only [one_mul, hcast, Int.floor_natCast, Int.toNat_natCast]
  rw [if_neg (by omega)]

theorem quantileAt_intPos {s : List ℚ} {p : ℚ} {k : ℕ}
    (hk : p * ((s.length : ℚ) - 1) = (k : ℚ)) :
    quantileAt s p = s.getD k 0 := by
  rw [quantileAt, hk]
  simp only [Int.floor_natCast, Int.toNat_natCast]
  split_ifs with h
  · simp
  · rfl

theorem quantileAt_strictMono {s : List ℚ} (hs : s.Pairwise (· < ·))
    (h2 : 2 ≤ s.length) {p q : ℚ} (hp : 0 ≤ p) (hq : q ≤ 1) (hpq : p < q) :
    quantileAt s p < quantileAt s q := by
  have hsle : s.Pairwise (· ≤ ·) := hs.imp le_of_lt
  have hn1 : (1 : ℚ) ≤ (s.length : ℚ) - 1 := by
    have : (2 : ℚ) ≤ (s.length : ℚ) := by exact_mod_cast h2
    linarith
  rw [quantileAt, quantileAt]
  set pos := p * ((s.length : ℚ) - 1) with hposdef
  set pos' := q * ((s.length : ℚ) - 1) with hposdef'
  have hpos0 : 0 ≤ pos := mul_nonneg hp (by linarith)
  have hposlt : pos < pos' := by
    rw [hposdef, hposdef']
    exact mul_lt_mul_of_pos_right hpq (by linarith)
  have hpos'le : pos' ≤ (s.length : ℚ) - 1 := by
    rw [hposdef']
    calc q * ((s.length : ℚ) - 1) ≤ 1 * ((s.length : ℚ) - 1) :=
          mul_le_mul_of_nonneg_right hq (by linarith)
      _ = (s.length : ℚ) - 1 := one_mul _
  set lo := ⌊pos⌋.toNat with hlodef
  set lo' := ⌊pos'⌋.toNat with hlodef'
  have hfl0 : 0 ≤ ⌊pos⌋ := Int.floor_nonneg.mpr hpos0
  have hfl0' : 0 ≤ ⌊pos'⌋ := Int.floor_nonneg.mpr (hpos0.trans hposlt.le)
  have hclo : ((lo : ℕ) : ℚ) = ((⌊pos⌋ : ℤ) : ℚ) := by
    rw [hlodef]
    exact_mod_cast congrArg (fun z : ℤ => (z : ℚ)) (Int.toNat_of_nonneg hfl0)
  have hclo' : ((lo' : ℕ) : ℚ) = ((⌊pos'⌋ : ℤ) : ℚ) := by
    rw [hlodef']
    exact_mod_cast congrArg (fun z : ℤ => (z : ℚ)) (Int.toNat_of_nonneg hfl0')
  have hlole : (lo : ℚ) ≤ pos := by rw [hclo]; exact Int.floor_le pos
  have hlolt : pos < (lo : ℚ) + 1 := by rw [hclo]; exact Int.lt_floor_add_one pos
  have hlole' : (lo' : ℚ) ≤ pos' := by rw [hclo']; exact Int.floor_le pos'
  have hll : lo ≤ lo' := by
    rw [hlodef, hlodef']
    exact Int.toNat_le_toNat (Int.floor_le_floor hposlt.le)
  have hlo'top : lo' ≤ s.length - 1 := by
    have h1 : ⌊pos'⌋ ≤ ⌊(s.length : ℚ) - 1⌋ := Int.floor_le_floor hpos'le
    have h2' : ((s.length : ℚ) - 1) = ((s.length - 1 : ℕ) : ℚ) := by
      push_cast [show 1 ≤ s.length by omega]
      ring
    rw [h2', Int.floor_natCast] at h1
    rw [hlodef']
    omega
  rcases Nat.eq_or_lt_of_le hll with heq | hlt
  · -- same interpolation cell
    by_cases hbranch : lo + 1 < s.length
    · rw [if_pos hbranch, if_pos (heq ▸ hbranch)]
      have hdiff : 0 < s.getD (lo + 1) 0 - s.getD lo 0 :=
        sub_pos.mpr (sorted_getD_strictMono hs (Nat.lt_succ_self lo) hbranch)
      have hfrac : pos - (lo : ℚ) < pos' - ((lo' : ℕ) : ℚ) := by
        rw [← heq]
        linarith
      have := mul_lt_mul_of_pos_right hfrac (heq ▸ hdiff)
      rw [← heq]
      nlinarith [hdiff]
    · -- the cell is past the end: impossible since pos < pos' ≤ n - 1 ≤ lo ≤ pos
      exfalso
      have htop : s.length - 1 ≤ lo := by omega
      have : ((s.length : ℚ) - 1) ≤ (lo : ℚ) := by
        have hc : ((s.length - 1 : ℕ) : ℚ) ≤ (lo : ℚ) := by exact_mod_cast htop
        have h2' : ((s.length : ℚ) - 1) = ((s.length - 1 : ℕ) : ℚ) := by
          push_cast [show 1 ≤ s.length by omega]
          ring
        rw [h2']
        exact hc
      linarith
  · -- pos is in a strictly earlier cell
    have hlon : lo + 1 < s.length := by omega
    rw [if_pos hlon]
    have hdiff : 0 < s.getD (lo + 1) 0 - s.getD lo 0 :=
      sub_pos.mpr (sorted_getD_strictMono hs (Nat.lt_succ_self lo) hlon)
    have hleft : s.getD lo 0 + (pos - (lo : ℚ)) * (s.getD (lo + 1) 0 - s.getD lo 0)
        < s.getD (lo + 1) 0 := by
      have hfrac1 : pos - (lo : ℚ) < 1 := by linarith
      nlinarith [hdiff]
    have hmid : s.getD (lo + 1) 0 ≤ s.getD lo' 0 :=
      sorted_getD_mono hsle hlt (by omega)
    by_cases hbranch' : lo' + 1 < s.length
    · rw [if_pos hbranch']
      have hdiff' : 0 ≤ s.getD (lo' + 1) 0 - s.getD lo' 0 :=
        le_of_lt (sub_pos.mpr (sorted_getD_strictMono hs (Nat.lt_succ_self lo') hbranch'))
      have hfrac0' : 0 ≤ pos' - ((lo' : ℕ) : ℚ) := by linarith
      nlinarith [hdiff']
    · rw [if_neg hbranch']
      linarith

theorem quantileEdges_expand (xs : List ℚ) :
    quantileEdges xs 5 = [quantileAt (sortQ xs) 0, quantileAt (sortQ xs) (1/5),
      quantileAt (sortQ xs) (2/5), quantileAt (sortQ xs) (3/5),
      quantileAt (sortQ xs) (4/5), quantileAt (sortQ xs) 1] := by
  have h6 : List.range (5 + 1) = [0, 1, 2, 3, 4, 5] := rfl
  rw [quantileEdges, h6]
  norm_num

theorem rank_edges_pairwise_lt {xs : List ℚ} (h5 : 5 ≤ nunique xs) :
    (quantileEdges (rankQ xs) 5).Pairwise (· < ·) := by
  have hlen : 5 ≤ xs.length := le_trans h5 (nunique_le_length xs)
  have hperm := sortQ_perm (rankQ xs)
  have hsorted := sortQ_sorted (rankQ xs)
  have hnd : (sortQ (rankQ xs)).Nodup := (hperm.nodup_iff).mpr (rankQ_nodup xs)
  have hstrict : (sortQ (rankQ xs)).Pairwise (· < ·) :=
    (hsorted.and hnd).imp (fun h => lt_of_le_of_ne h.1 h.2)
  have hlen2 : 2 ≤ (sortQ (rankQ xs)).length := by
    rw [hperm.length_eq, rankQ_length]
    omega
  have hkey : ∀ p q : ℚ, 0 ≤ p → q ≤ 1 → p < q →
      quantileAt (sortQ (rankQ xs)) p < quantileAt (sortQ (rankQ xs)) q :=
    fun p q hp hq hpq => quantileAt_strictMono hstrict hlen2 hp hq hpq
  rw [quantileEdges_expand]
  refine List.pairwise_cons.mpr ⟨?_, List.pairwise_cons.mpr ⟨?_,
    List.pairwise_cons.mpr ⟨?_, List.pairwise_cons.mpr ⟨?_,
    List.pairwise_cons.mpr ⟨?_, List.pairwise_cons.mpr
      ⟨fun z hz => absurd hz (List.not_mem_nil z), List.Pairwise.nil⟩⟩⟩⟩⟩⟩ <;>
    intro z hz <;> fin_cases hz <;>
    exact hkey _ _ (by norm_num) (by norm_num) (by norm_num)

theorem rank_edges_nodup {xs : List ℚ} (h5 : 5 ≤ nunique xs) :
    (quantileEdges (rankQ xs) 5).Nodup :=
  (rank_edges_pairwise_lt h5).imp (fun h => ne_of_lt h)

/-! ### Totality of the bin assignment over covered values -/

theorem assignBin_mem_excl {α : Type} {a b c d e : α} {e0 e1 e2 e3 e4 e5 x : ℚ}
    (h0 : e0 < x) (h5 : x ≤ e5) :
    ∃ k ∈ ([a, b, c, d, e] : List α),
      assignBin [e0, e1, e2, e3, e4, e5] [a, b, c, d, e] false x = some k := by
  have hlt : ¬ x ≤ e0 := not_le.mpr h0
  by_cases h1 : x ≤ e1
  · exact ⟨a, by simp, by norm_num [assignBin, searchIdx, hlt, h1, List.get?]⟩
  by_cases h2 : x ≤ e2
  · exact ⟨b, by simp, by norm_num [assignBin, searchIdx, hlt, h1, h2, List.get?]⟩
  by_cases h3 : x ≤ e3
  · exact ⟨c, by simp, by norm_num [assignBin, searchIdx, hlt, h1, h2, h3, List.get?]⟩
  by_cases h4 : x ≤ e4
  · exact ⟨d, by simp, by norm_num [assignBin, searchIdx, hlt, h1, h2, h3, h4, List.get?]⟩
  exact ⟨e, by simp, by norm_num [assignBin, searchIdx, hlt, h1, h2, h3, h4, h5, List.get?]⟩

theorem assignBin_mem_incl {α : Type} {a b c d e : α} {e0 e1 e2 e3 e4 e5 x : ℚ}
    (h0 : e0 ≤ x) (h5 : x ≤ e5) :
    ∃ k ∈ ([a, b, c, d, e] : List α),
      assignBin [e0, e1, e2, e3, e4, e5] [a, b, c, d, e] true x = some k := by
  by_cases hx0 : e0 = x
  · exact ⟨a, by simp, by norm_num [assignBin, searchIdx, hx0, List.get?]⟩
  have hlt : ¬ x ≤ e0 := not_le.mpr (lt_of_le_of_ne h0 hx0)
  by_cases h1 : x ≤ e1
  · exact ⟨a, by simp, by norm_num [assignBin, searchIdx, hx0, hlt, h1, List.get?]⟩
  by_cases h2 : x ≤ e2
  · exact ⟨b, by simp, by norm_num [assignBin, searchIdx, hx0, hlt, h1, h2, List.get?]⟩
  by_cases h3 : x ≤ e3
  · exact ⟨c, by simp, by norm_num [assignBin, searchIdx, hx0, hlt, h1, h2, h3, List.get?]⟩
  by_cases h4 : x ≤ e4
  · exact ⟨d, by simp, by norm_num [assignBin, searchIdx, hx0, hlt, h1, h2, h3, h4, List.get?]⟩
  exact ⟨e, by simp, by norm_num [assignBin, searchIdx, hx0, hlt, h1, h2, h3, h4, h5, List.get?]⟩

/-! ### Every covered value receives a label from the label list -/

theorem linspaceEdges_expand (lo hi : ℚ) :
    linspaceEdges lo hi 5 = [lo, lo + (hi - lo) / 5, lo + 2 * (hi - lo) / 5,
      lo + 3 * (hi - lo) / 5, lo + 4 * (hi - lo) / 5, hi] := by
  have h6 : List.range (5 + 1) = [0, 1, 2, 3, 4, 5] := rfl
  rw [linspaceEdges, h6]
  simp only [List.map_cons, List.map_nil, List.cons.injEq, and_true]
  refine ⟨by push_cast; ring, by push_cast; ring, by push_cast; ring,
    by push_cast; ring, by push_cast; ring, by push_cast; ring⟩

theorem cutBins_of_lt {xs : List ℚ} (h : listMin xs < listMax xs) :
    cutBins xs 5 = [listMin xs - (listMax xs - listMin xs) / 1000,
      listMin xs + (listMax xs - listMin xs) / 5,
      listMin xs + 2 * (listMax xs - listMin xs) / 5,
      listMin xs + 3 * (listMax xs - listMin xs) / 5,
      listMin xs + 4 * (listMax xs - listMin xs) / 5, listMax xs] := by
  rw [cutBins, if_neg (ne_of_lt h), linspaceEdges_expand]

theorem cutN_mem_total {α : Type} {a b c d e : α} {xs : List ℚ}
    (h2 : 2 ≤ nunique xs) {s : Option α} (hs : s ∈ cutN xs 5 [a, b, c, d, e]) :
    ∃ k ∈ ([a, b, c, d, e] : List α), s = some k := by
  have hlt := listMin_lt_listMax_of_nunique h2
  rcases List.mem_map.mp hs with ⟨x, hx, rfl⟩
  rw [cutBins_of_lt hlt]
  have hd : 0 < listMax xs - listMin xs := sub_pos.mpr hlt
  have h0 : listMin xs - (listMax xs - listMin xs) / 1000 < x := by
    have := listMin_le hx
    linarith
  rcases assignBin_mem_excl h0 (le_listMax hx) with ⟨k, hk, heq⟩
  exact ⟨k, hk, heq⟩

theorem qcut_mem_total {α : Type} {a b c d e : α} {base : List ℚ}
    {scores : List (Option α)}
    (hq : qcut base 5 [a, b, c, d, e] = some scores) {s : Option α}
    (hs : s ∈ scores) : ∃ k ∈ ([a, b, c, d, e] : List α), s = some k := by
  rw [qcut] at hq
  by_cases hnd : (quantileEdges base 5).Nodup
  case neg => rw [if_neg hnd] at hq; cases hq
  rw [if_pos hnd] at hq
  injection hq with hq
  subst hq
  rcases List.mem_map.mp hs with ⟨x, hx, rfl⟩
  have hb : base ≠ [] := List.ne_nil_of_mem hx
  have hnil : sortQ base ≠ [] := by
    intro hnilq
    have hlen : base.length = 0 := by
      rw [← (sortQ_perm base).length_eq, hnilq]
      rfl
    exact hb (List.eq_nil_of_length_eq_zero hlen)
  have hxs : x ∈ sortQ base := ((sortQ_perm base).mem_iff).mpr hx
  rw [quantileEdges_expand]
  exact assignBin_mem_incl
    (by rw [quantileAt_zero]; exact sorted_head_le (sortQ_sorted base) hxs)
    (by rw [quantileAt_one hnil]; exact sorted_le_last (sortQ_sorted base) hxs)

theorem scoreMetric_range {a b c d e : ℕ}
    (hb : ∀ k ∈ ([a, b, c, d, e] : List ℕ), 1 ≤ k ∧ k ≤ 5)
    (xs : List ℚ) (useRank : Bool) {s : Option ℕ}
    (hs : s ∈ scoreMetric xs [a, b, c, d, e] useRank) :
    ∃ k, s = some k ∧ 1 ≤ k ∧ k ≤ 5 := by
  rw [scoreMetric] at hs
  by_cases hn : nunique xs < 5
  · rw [if_pos hn] at hs
    rcases List.mem_map.mp hs with ⟨x, _, rfl⟩
    exact ⟨3, rfl, by norm_num, by norm_num⟩
  · rw [if_neg hn] at hs
    rcases hq : qcut (if useRank then rankQ xs else xs) 5 [a, b, c, d, e] with _ | scores
    · rw [hq, Option.getD_none] at hs
      rcases cutN_mem_total (by omega) hs with ⟨k, hk, hsk⟩
      exact ⟨k, hsk, (hb k hk).1, (hb k hk).2⟩
    · rw [hq, Option.getD_some] at hs
      rcases qcut_mem_total hq hs with ⟨k, hk, hsk⟩
      exact ⟨k, hsk, (hb k hk).1, (hb k hk).2⟩

theorem scoreMetric_rank_no_fallback {xs : List ℚ} (h5 : 5 ≤ nunique xs)
    (labels : List ℕ) :
    scoreMetric xs labels true
      = (rankQ xs).map (assignBin (quantileEdges (rankQ xs) 5) labels true) := by
  rw [scoreMetric, if_neg (Nat.not_lt.mpr h5), if_pos rfl, qcut,
    if_pos (rank_edges_nodup h5), Option.getD_some]

theorem sumScores_range : ∀ {rs fs ms : List (Option ℕ)},
    (∀ s ∈ rs, ∃ k, s = some k ∧ 1 ≤ k ∧ k ≤ 5) →
    (∀ s ∈ fs, ∃ k, s = some k ∧ 1 ≤ k ∧ k ≤ 5) →
    (∀ s ∈ ms, ∃ k, s = some k ∧ 1 ≤ k ∧ k ≤ 5) →
    ∀ c ∈ sumScores rs fs ms, ∃ v, c = some v ∧ 3 ≤ v ∧ v ≤ 15 := by
  intro rs
  induction rs with
  | nil => intro fs ms _ _ _ c hc; simp [sumScores] at hc
  | cons r rs ih =>
    intro fs ms hr hf hm c hc
    cases fs with
    | nil => simp [sumScores] at hc
    | cons f fs =>
      cases ms with
      | nil => simp [sumScores] at hc
      | cons m ms =>
        rw [sumScores] at hc
        rcases List.mem_cons.mp hc with rfl | hc
        · rcases hr r (List.mem_cons_self r rs) with ⟨kr, hkr, hr1, hr5⟩
          rcases hf f (List.mem_cons_self f fs) with ⟨kf, hkf, hf1, hf5⟩
          rcases hm m (List.mem_cons_self m ms) with ⟨km, hkm, hm1, hm5⟩
          refine ⟨kr + kf + km, ?_, by omega, by omega⟩
          rw [hkr, hkf, hkm]
          rfl
        · exact ih (fun s hs => hr s (List.mem_cons_of_mem r hs))
            (fun s hs => hf s (List.mem_cons_of_mem f hs))
            (fun s hs => hm s (List.mem_cons_of_mem m hs)) c hc

/-! ### Claim theorems -/

/-- C1: for every RFM metric (recency, frequency, monetary), if the metric
has fewer than 5 distinct values across the current filtered customer
population, then every customer in that population is assigned the score
3 for that metric. -/
theorem spec_C1 (t : List RFMRow) :
    (nunique (recencies t) < 5 → rScores t = List.replicate t.length (some 3)) ∧
    (nunique (frequencies t) < 5 → fScores t = List.replicate t.length (some 3)) ∧
    (nunique (monetaries t) < 5 → mScores t = List.replicate t.length (some 3)) := by
  refine ⟨fun h => ?_, fun h => ?_, fun h => ?_⟩
  · rw [rScores, scoreMetric, if_pos h]
    refine List.eq_replicate_iff.mpr ⟨by simp [recencies], ?_⟩
    intro b hb
    rcases List.mem_map.mp hb with ⟨x, _, rfl⟩
    rfl
  · rw [fScores, scoreMetric, if_pos h]
    refine List.eq_replicate_iff.mpr ⟨by simp [frequencies], ?_⟩
    intro b hb
    rcases List.mem_map.mp hb with ⟨x, _, rfl⟩
    rfl
  · rw [mScores, scoreMetric, if_pos h]
    refine List.eq_replicate_iff.mpr ⟨by simp [monetaries], ?_⟩
    intro b hb
    rcases List.mem_map.mp hb with ⟨x, _, rfl⟩
    rfl

/-- Witness for C1: a single-customer population has one distinct value
per metric, so all three scores are the neutral 3. -/
theorem spec_C1_witness :
    rScores [⟨1, 0, 1, 100⟩] = [some 3] ∧ fScores [⟨1, 0, 1, 100⟩] = [some 3] ∧
    mScores [⟨1, 0, 1, 100⟩] = [some 3] :=
  ⟨((spec_C1 [⟨1, 0, 1, 100⟩]).1 (by decide)).trans rfl,
   ((spec_C1 [⟨1, 0, 1, 100⟩]).2.1 (by decide)).trans rfl,
   ((spec_C1 [⟨1, 0, 1, 100⟩]).2.2 (by decide)).trans rfl⟩

/-- C2: segment assignment is a pure function of the composite score with
the fixed thresholds `[0,4] → Bronze`, `(4,8] → Silver`, `(8,12] → Gold`,
`(12,15] → Platinum`; in particular composite 9 (all scores 3) is Gold. -/
theorem spec_C2 (s : ℕ) (hs : s ≤ 15) :
    segmentOf (some s) = some (if s ≤ 4 then "Bronze" else if s ≤ 8 then "Silver"
      else if s ≤ 12 then "Gold" else "Platinum") ∧
    segmentOf (some 9) = some "Gold" := by
  constructor
  · interval_cases s <;> decide
  · decide

/-- Witness for C2 at composite score 9. -/
theorem spec_C2_witness : segmentOf (some 9) = some "Gold" :=
  (spec_C2 9 (by norm_num)).2

/-- C3: every composite score of a (non-empty) RFM result is a defined
integer in `[3, 15]`. -/
theorem spec_C3 (rows : List OPRow) (endD : ℚ) (c : Option ℕ)
    (hc : c ∈ compositeScores (rfmTable rows endD)) :
    ∃ v, c = some v ∧ 3 ≤ v ∧ v ≤ 15 := by
  refine sumScores_range (fun s hs => ?_) (fun s hs => ?_) (fun s hs => ?_) c hc
  · exact scoreMetric_range (by decide) _ _ hs
  · exact scoreMetric_range (by decide) _ _ hs
  · exact scoreMetric_range (by decide) _ _ hs

/-- Witness for C3: the spec §8 scenario — one delivered order of value
100 with the window ending on the purchase day gives composite 9. -/
theorem spec_C3_witness :
    (some 9 : Option ℕ) ∈ compositeScores (rfmTable [⟨1, 1, 0, 100⟩] 0) ∧
    ∃ v, (some 9 : Option ℕ) = some v ∧ 3 ≤ v ∧ v ≤ 15 := by
  have ht : rfmTable [⟨1, 1, 0, 100⟩] 0 = [⟨1, 0, 1, 100⟩] := by
    norm_num [rfmTable, customersOf, rowsOf, sortLe, insertLe, natLe, listMax,
      List.dedup]
  have hmem : (some 9 : Option ℕ) ∈ compositeScores (rfmTable [⟨1, 1, 0, 100⟩] 0) := by
    rw [ht]
    simp [compositeScores, rScores, fScores, mScores, scoreMetric, nunique,
      recencies, frequencies, monetaries, sumScores, List.dedup]
  exact ⟨hmem, spec_C3 [⟨1, 1, 0, 100⟩] 0 (some 9) hmem⟩

/-- C4: the signed delivery delta is classified into exactly one of the 5
ordered bins by the fixed thresholds, with the spec's four examples. -/
theorem spec_C4 (d : ℤ) :
    (deliveryStatus d = "Very Early" ↔ d ≤ -3) ∧
    (deliveryStatus d = "Early" ↔ -3 < d ∧ d ≤ -1) ∧
    (deliveryStatus d = "On Time" ↔ -1 < d ∧ d ≤ 0) ∧
    (deliveryStatus d = "Late" ↔ 0 < d ∧ d ≤ 2) ∧
    (deliveryStatus d = "Very Late" ↔ 2 < d) ∧
    deliveryStatus (deliveryDifference (-5) 0) = "Very Early" ∧
    deliveryStatus (deliveryDifference 0 0) = "On Time" ∧
    deliveryStatus (deliveryDifference 1 0) = "Late" ∧
    deliveryStatus (deliveryDifference 5 0) = "Very Late" := by
  refine ⟨?_, ?_, ?_, ?_, ?_, by decide, by decide, by decide, by decide⟩ <;>
    rw [deliveryStatus] <;> split_ifs <;> simp_all <;> omega

/-- C5: both date filters return sublists of the orders table in which
every order's purchase timestamp lies in `[start, end]`, and an inverted
window (`end < start`) yields the empty list rather than an error. -/
theorem spec_C5 (orders : List Order) (startD endD : ℚ) :
    (filterOrders orders startD endD).Sublist orders ∧
    ((filterOrders orders startD endD).all
      (fun o => decide (startD ≤ o.purchase_ts ∧ o.purchase_ts ≤ endD)) = true) ∧
    (endD < startD → filterOrders orders startD endD = []) ∧
    (filterOrdersDelivered orders startD endD).Sublist orders ∧
    ((filterOrdersDelivered orders startD endD).all
      (fun o => decide (startD ≤ o.purchase_ts ∧ o.purchase_ts ≤ endD)) = true) ∧
    (endD < startD → filterOrdersDelivered orders startD endD = []) := by
  refine ⟨List.filter_sublist _, ?_, ?_, List.filter_sublist _, ?_, ?_⟩
  · rw [List.all_eq_true]
    intro o ho
    exact (List.mem_filter.mp ho).2
  · intro hlt
    rw [filterOrders, List.filter_eq_nil_iff]
    intro o _
    simp only [decide_eq_true_eq]
    rintro ⟨h1, h2⟩
    linarith
  · rw [List.all_eq_true]
    intro o ho
    have h := of_decide_eq_true (List.mem_filter.mp ho).2
    exact decide_eq_true ⟨h.1, h.2.1⟩
  · intro hlt
    rw [filterOrdersDelivered, List.filter_eq_nil_iff]
    intro o _
    simp only [decide_eq_true_eq]
    rintro ⟨h1, h2, _⟩
    linarith

/-- Witness for C5: an inverted window on a one-order table is empty. -/
theorem spec_C5_witness :
    filterOrders [⟨1, 1, "delivered", 5⟩] 6 2 = [] ∧
    filterOrdersDelivered [⟨1, 1, "delivered", 5⟩] 6 2 = [] :=
  ⟨(spec_C5 [⟨1, 1, "delivered", 5⟩] 6 2).2.2.1 (by norm_num),
   (spec_C5 [⟨1, 1, "delivered", 5⟩] 6 2).2.2.2.2.2 (by norm_num)⟩

/-- C6 counterexample: a product whose category has no translation is
never matched by the code's category filter, although the specification's
native-name fallback would keep its items: the code compares only the
`product_category_name_english` column (a `NaN` cell matches nothing). -/
theorem spec_C6_counterexample :
    filterByCategory [⟨10, 1, 50⟩] [⟨1, "moveis_decoracao", none⟩]
      (some "moveis_decoracao") = [] ∧
    filterByCategorySpec [⟨10, 1, 50⟩] [⟨1, "moveis_decoracao", none⟩]
      (some "moveis_decoracao") = [⟨10, 1, 50⟩] ∧
    filterByCategory [⟨10, 1, 50⟩] [⟨1, "moveis_decoracao", none⟩]
      (some "moveis_decoracao")
      ≠ filterByCategorySpec [⟨10, 1, 50⟩] [⟨1, "moveis_decoracao", none⟩]
          (some "moveis_decoracao") := by
  refine ⟨?_, ?_, ?_⟩ <;> decide

/-- C6 (amended): with no selection all items are kept; with a selected
category the filter keeps exactly the items whose product has translated
category equal to the selection — a product without a translation never
matches, there is no fallback to the native category name. -/
theorem spec_C6 (items : List OrderItem) (products : List Product) (c : String) :
    filterByCategory items products none = items ∧
    ∀ it, it ∈ filterByCategory items products (some c) ↔
      it ∈ items ∧ ∃ p ∈ products, p.product_id = it.product_id ∧
        p.category_name_english = some c := by
  refine ⟨rfl, fun it => ?_⟩
  rw [filterByCategory]
  rw [List.mem_filter]
  simp only [decide_eq_true_eq, List.mem_map, List.mem_filter]
  constructor
  · rintro ⟨hit, ⟨p, ⟨hp, hpc⟩, hpid⟩⟩
    exact ⟨hit, p, hp, hpid, hpc⟩
  · rintro ⟨hit, p, hp, hpid, hpc⟩
    exact ⟨hit, ⟨p, ⟨hp, hpc⟩, hpid⟩⟩

/-- C7 counterexample: two categories with equal summed price; the code's
`sort_values(..., ascending=False)` (a reversed stable ascending sort)
puts the later grouped row first, while the claim's stable descending
sort would keep the grouped order. -/
theorem spec_C7_counterexample :
    topCategories natLe [((1 : ℕ), (5 : ℚ)), (2, 5)] = [(2, 5), (1, 5)] ∧
    topCategoriesSpec natLe [((1 : ℕ), (5 : ℚ)), (2, 5)] = [(1, 5), (2, 5)] ∧
    topCategories natLe [((1 : ℕ), (5 : ℚ)), (2, 5)]
      ≠ topCategoriesSpec natLe [((1 : ℕ), (5 : ℚ)), (2, 5)] := by
  have hcs : categorySales natLe [((1 : ℕ), (5 : ℚ)), (2, 5)] = [(1, 5), (2, 5)] := by
    norm_num [categorySales, sortLe, insertLe, natLe, List.dedup]
  refine ⟨?_, ?_, ?_⟩
  · rw [topCategories, hcs]
    norm_num [sortValuesDescByPrice, sortLe, insertLe]
  · rw [topCategoriesSpec, hcs]
    norm_num [sortLe, insertLe]
  · rw [topCategories, topCategoriesSpec, hcs]
    norm_num [sortValuesDescByPrice, sortLe, insertLe]

/-- C7 (amended): the ranking sorts the grouped rows descending by summed
price and takes the top 10, but ties in the sum are NOT broken by the
grouped frame's row order: the sort is the reverse of a stable ascending
sort, so of two categories with equal sums the one appearing later in
the grouped frame precedes the other. -/
theorem spec_C7 (rows : List (ℕ × ℚ)) (x y : ℕ × ℚ) (hxy : x.2 = y.2) :
    (sortValuesDescByPrice rows).Perm rows ∧
    (sortValuesDescByPrice rows).Pairwise (fun a b => b.2 ≤ a.2) ∧
    sortValuesDescByPrice [x, y] = [y, x] ∧
    (topCategories natLe rows).length ≤ 10 := by
  refine ⟨?_, ?_, ?_, ?_⟩
  · exact (List.reverse_perm _).trans (sortLe_perm _ rows)
  · rw [sortValuesDescByPrice, List.pairwise_reverse]
    have h := @sortLe_pairwise (ℕ × ℚ) (fun a b : ℕ × ℚ => decide (a.2 ≤ b.2))
      (fun a b => by
        rcases le_total a.2 b.2 with h | h
        · exact Or.inl (decide_eq_true h)
        · exact Or.inr (decide_eq_true h))
      (fun a b c hab hbc =>
        decide_eq_true ((of_decide_eq_true hab).trans (of_decide_eq_true hbc)))
      rows
    exact h.imp (fun hab => of_decide_eq_true hab)
  · simp [sortValuesDescByPrice, sortLe, insertLe, hxy]
  · rw [topCategories]
    simp [List.length_take]

/-- Witness for C7 with two equal-priced rows. -/
theorem spec_C7_witness :
    sortValuesDescByPrice [((1 : ℕ), (7 : ℚ)), (2, 7)] = [(2, 7), (1, 7)] :=
  (spec_C7 [] ((1 : ℕ), (7 : ℚ)) ((2 : ℕ), (7 : ℚ)) rfl).2.2.1

/-- C8 counterexample: a voucher payment of value 0 makes the grand total
0, and the percentage column `total_value / total_value.sum() * 100` is
computed without any guard: the share is `NaN` (undefined), not the 0
the claim requires. -/
theorem spec_C8_counterexample :
    paymentPercentages [⟨1, "voucher", 0⟩] = [none] ∧
    (none : Option ℚ) ≠ some 0 := by
  constructor
  · norm_num [paymentPercentages, paymentSummary, grandTotal, floatDiv, sortLe,
      insertLe, strLe, List.dedup]
  · decide

/-- C8 (amended): the average order value is guarded — it is 0 when the
filtered item set has no orders — but the payment-type percentage is not:
a zero grand total produces an undefined float (`NaN`), while a non-zero
denominator gives the ordinary quotient. -/
theorem spec_C8 (items : List OrderItem) (v t : ℚ) (pays : List Payment)
    (h0 : totalOrders items = 0) (ht : t ≠ 0) (hg : grandTotal pays = 0) :
    avgOrderValue items = 0 ∧
    floatDiv v 0 = none ∧
    floatDiv v t = some (v / t) ∧
    paymentPercentages pays = (paymentSummary pays).map (fun _ => none) := by
  refine ⟨?_, ?_, ?_, ?_⟩
  · rw [avgOrderValue, h0]
    norm_num
  · rw [floatDiv, if_pos rfl]
  · rw [floatDiv, if_neg ht]
  · simp [paymentPercentages, hg, floatDiv]

/-- Witness for C8: an empty item set and the denominators 0 and 2. -/
theorem spec_C8_witness :
    avgOrderValue [] = 0 ∧ floatDiv 7 0 = none ∧ floatDiv 7 2 = some (7 / 2) ∧
    paymentPercentages [] = (paymentSummary []).map (fun _ => none) :=
  spec_C8 [] 7 2 [] (by decide) (by norm_num) rfl

/-- C9: an empty filtered population raises no exception — the RFM tab
reports the analysis as unavailable (`none`), the Segmenter's frame is
empty, and the aggregators return empty mappings. -/
theorem spec_C9 (endD : ℚ) :
    rfmAnalysis [] endD = none ∧ rfmTable [] endD = [] ∧
    paymentSummary [] = [] ∧
    categorySales natLe ([] : List (ℕ × ℚ)) = [] ∧
    ordersWithPayments [] [] = [] :=
  ⟨rfl, rfl, rfl, rfl, rfl⟩

/-- C10: `rank(method='first')` of any column is pairwise distinct (one
rank per row), so with at least 5 distinct metric values the 5-quantile
cut of the ranks always succeeds: the equal-width fallback for frequency
and monetary is unreachable and their scores lie in `{1,…,5}`; the
recency cut, applied to raw values, can genuinely fail (witnessed by the
column `[0,0,1,2,3,4]`), so only recency can reach its fallback. -/
theorem spec_C10 (xs : List ℚ) (h5 : 5 ≤ nunique xs) :
    (rankFirst xs).Nodup ∧ (rankFirst xs).length = xs.length ∧
    (qcut (rankQ xs) 5 [1, 2, 3, 4, 5]).isSome = true ∧
    scoreMetric xs [1, 2, 3, 4, 5] true
      = (rankQ xs).map (assignBin (quantileEdges (rankQ xs) 5) [1, 2, 3, 4, 5] true) ∧
    (∀ s ∈ scoreMetric xs [1, 2, 3, 4, 5] true, ∃ k, s = some k ∧ 1 ≤ k ∧ k ≤ 5) ∧
    nunique [0, 0, 1, 2, 3, 4] = 5 ∧
    qcut ([0, 0, 1, 2, 3, 4] : List ℚ) 5 [5, 4, 3, 2, 1] = none := by
  refine ⟨rankFirst_nodup xs, rankFirst_length xs, ?_,
    scoreMetric_rank_no_fallback h5 _,
    fun s hs => scoreMetric_range (by decide) xs true hs, by decide, ?_⟩
  · rw [qcut, if_pos (rank_edges_nodup h5)]
    rfl
  · have hsorted : sortQ [0, 0, 1, 2, 3, 4] = [0, 0, 1, 2, 3, 4] := by decide
    have h0 := quantileAt_intPos (s := [0, 0, 1, 2, 3, 4]) (p := 0) (k := 0) (by norm_num)
    have h1 := quantileAt_intPos (s := [0, 0, 1, 2, 3, 4]) (p := 1/5) (k := 1) (by norm_num)
    have h2 := quantileAt_intPos (s := [0, 0, 1, 2, 3, 4]) (p := 2/5) (k := 2) (by norm_num)
    have h3 := quantileAt_intPos (s := [0, 0, 1, 2, 3, 4]) (p := 3/5) (k := 3) (by norm_num)
    have h4 := quantileAt_intPos (s := [0, 0, 1, 2, 3, 4]) (p := 4/5) (k := 4) (by norm_num)
    have h5' := quantileAt_intPos (s := [0, 0, 1, 2, 3, 4]) (p := 1) (k := 5) (by norm_num)
    rw [qcut, quantileEdges_expand, hsorted, h0, h1, h2, h3, h4, h5',
      if_neg (by decide)]

/-- Witness for C10 on the column `[1,2,3,4,5]` (5 distinct values). -/
theorem spec_C10_witness :
    (qcut (rankQ [(1 : ℚ), 2, 3, 4, 5]) 5 [1, 2, 3, 4, 5]).isSome = true :=
  (spec_C10 [1, 2, 3, 4, 5] (by decide)).2.2.1

end OlistDash
